import Mathlib

/-!
# Parsec ingest path — verification of the natural-language specification

A shallow embedding, in Lean 4, of the parts of the Parsec log-processing
repository that the specification's claims talk about:

* `internal/models` — `LogEvent`, `Severity`, `Validate`, `Normalize`,
  `Envelope`, `NewEnvelope`, `WithBatch`;
* `internal/handlers/ingest.go` — `processEvents` and the `IngestResponse`
  JSON shape;
* `internal/worker/worker.go` — the per-worker batching loop and
  `publishBatch`;
* the Kafka producer (`Publish`, `PublishBatch`, `publishWithRetry`,
  `publishBatchWithRetry`, `Close`);
* the `Auth` HTTP middleware.

Modelling conventions:

* Go strings are lists of Unicode code points (`GoStr := List Nat`);
  `strings.TrimSpace` / `ToLower` / `ToUpper` are modelled pointwise on
  code points (the ASCII/Latin-1 fragment of Go's unicode tables, which is
  the fragment the repository's constants live in).  `len` on a Go string
  counts UTF-8 bytes, modelled by `goStrBytes`.
* `time.Time` instants are integers counting seconds since Go's zero time,
  so `IsZero` is `= 0` and `time.Now().Add(time.Minute)` is `now + 60`;
  `now` is passed explicitly to functions that call `time.Now()`.
* Go maps (`map[string]string`) are association lists; rebuilding a map by
  assignment (`m[k] = v`) is modelled by `upsert`, which overwrites an
  existing key in place and otherwise appends.
* Effects that depend on the environment (JSON marshalling outcome, Kafka
  write outcomes, context cancellation, the non-blocking channel send) are
  oracles passed as function arguments; the control flow around them is
  transcribed from the source.
-/

/-- A Go string, as its list of Unicode code points. -/
abbrev GoStr := List Nat

/-- Code points of a Lean string literal, used to embed Go string constants. -/
def gostr (s : String) : GoStr := s.data.map Char.toNat

/-- `unicode.IsSpace` on the Latin-1 range (the white-space class used by
`strings.TrimSpace`): HT, LF, VT, FF, CR, space, NEL, NBSP. -/
def isSpaceCp (n : Nat) : Bool :=
  decide (n = 9 ∨ n = 10 ∨ n = 11 ∨ n = 12 ∨ n = 13 ∨ n = 32 ∨ n = 133 ∨ n = 160)

/-- `unicode.ToLower` on one code point (ASCII letters). -/
def goLowerChar (n : Nat) : Nat := if 65 ≤ n ∧ n ≤ 90 then n + 32 else n

/-- `unicode.ToUpper` on one code point (ASCII letters). -/
def goUpperChar (n : Nat) : Nat := if 97 ≤ n ∧ n ≤ 122 then n - 32 else n

/-- Leading-whitespace trim (the left half of `strings.TrimSpace`). -/
def trimLeft (l : GoStr) : GoStr := l.dropWhile isSpaceCp

/-- Trailing-whitespace trim (the right half of `strings.TrimSpace`). -/
def trimRight (l : GoStr) : GoStr := (l.reverse.dropWhile isSpaceCp).reverse

/-- `strings.TrimSpace`. -/
def goTrimSpace (l : GoStr) : GoStr := trimRight (trimLeft l)

/-- `strings.ToLower`. -/
def goToLower (l : GoStr) : GoStr := l.map goLowerChar

/-- `strings.ToUpper`. -/
def goToUpper (l : GoStr) : GoStr := l.map goUpperChar

/-- UTF-8 byte width of one code point. -/
def utf8Width (n : Nat) : Nat :=
  if n < 128 then 1 else if n < 2048 then 2 else if n < 65536 then 3 else 4

/-- `len` of a Go string: its UTF-8 byte count. -/
def goStrBytes (l : GoStr) : Nat := (l.map utf8Width).sum

/-! ## `internal/models`: LogEvent, Severity, Validate -/

/-- `models.LogEvent`.  `metadata` is `none` for a nil Go map and
`some assocList` otherwise. -/
structure LogEvent where
  id        : GoStr
  tenantID  : GoStr
  timestamp : Int
  severity  : GoStr
  source    : GoStr
  message   : GoStr
  metadata  : Option (List (GoStr × GoStr))
  traceID   : GoStr
  spanID    : GoStr
  deriving Repr, DecidableEq

/-- `MaxMessageLength` from `metrics.go`. -/
def MaxMessageLength : Nat := 65536

/-- `MaxMetadataKeys` from `metrics.go`. -/
def MaxMetadataKeys : Nat := 50

/-- The validation errors of `internal/models` (`ErrEmptyID`, …). -/
inductive ValErr where
  | emptyID | emptyTenantID | zeroTimestamp | futureTimestamp
  | invalidTimestamp | invalidSeverity | emptySource | emptyMessage
  | messageTooLong | tooManyMetadata
  deriving Repr, DecidableEq

/-- `Severity.IsValid`: membership in the five-value enum. -/
def severityIsValid (s : GoStr) : Bool :=
  s = gostr "DEBUG" ∨ s = gostr "INFO" ∨ s = gostr "WARNING" ∨
    s = gostr "ERROR" ∨ s = gostr "CRITICAL"

/-- `len(e.Metadata)` — zero for a nil map. -/
def metaLen : Option (List (GoStr × GoStr)) → Nat
  | none => 0
  | some l => l.length

/-- `(*LogEvent).Validate`, transcribed check for check from `metrics.go`;
`now` stands for the `time.Now()` call inside. -/
def validate (now : Int) (e : LogEvent) : Option ValErr :=
  if e.id = [] then some .emptyID
  else if e.tenantID = [] then some .emptyTenantID
  else if e.timestamp = 0 then some .zeroTimestamp
  else if e.timestamp > now + 60 then some .futureTimestamp
  else if ¬ severityIsValid e.severity then some .invalidSeverity
  else if e.source = [] then some .emptySource
  else if e.message = [] then some .emptyMessage
  else if goStrBytes e.message > MaxMessageLength then some .messageTooLong
  else if metaLen e.metadata > MaxMetadataKeys then some .tooManyMetadata
  else none

/-- The specification's ordered check list for `Validate`, written from the
spec's own words: each check paired with the error kind it reports. -/
def validateChecks (now : Int) (e : LogEvent) : List (Bool × ValErr) :=
  [ (e.id = [], .emptyID),
    (e.tenantID = [], .emptyTenantID),
    (e.timestamp = 0, .zeroTimestamp),
    (e.timestamp > now + 60, .futureTimestamp),
    (¬ severityIsValid e.severity, .invalidSeverity),
    (e.source = [], .emptySource),
    (e.message = [], .emptyMessage),
    (goStrBytes e.message > MaxMessageLength, .messageTooLong),
    (metaLen e.metadata > MaxMetadataKeys, .tooManyMetadata) ]

/-- Spec-side validator: the error of the first violated check, success if
none is violated. -/
def validateSpec (now : Int) (e : LogEvent) : Option ValErr :=
  ((validateChecks now e).find? (·.1)).map (·.2)

set_option maxHeartbeats 1000000 in
/-- C1: `Validate` returns the first violated check's error, in the spec's
fixed order, and succeeds iff no check is violated. -/
theorem validate_first_violation (now : Int) (e : LogEvent) :
    validate now e = validateSpec now e ∧
    (validate now e = none ↔
      (e.id ≠ [] ∧ e.tenantID ≠ [] ∧ e.timestamp ≠ 0 ∧
        e.timestamp ≤ now + 60 ∧ severityIsValid e.severity ∧
        e.source ≠ [] ∧ e.message ≠ [] ∧
        goStrBytes e.message ≤ MaxMessageLength ∧
        metaLen e.metadata ≤ MaxMetadataKeys)) := by
  constructor
  · unfold validate validateSpec validateChecks
    repeat' split <;> simp_all [List.find?] <;> try omega
  · unfold validate
    split_ifs <;> simp_all <;> omega

/-- Witness for C1 at a concrete valid event. -/
theorem validate_first_violation_witness :
    validate 100
      { id := gostr "e1", tenantID := gostr "t1", timestamp := 50,
        severity := gostr "INFO", source := gostr "api", message := gostr "hi",
        metadata := none, traceID := [], spanID := [] } = none := by
  have h := validate_first_violation 100
    { id := gostr "e1", tenantID := gostr "t1", timestamp := 50,
      severity := gostr "INFO", source := gostr "api", message := gostr "hi",
      metadata := none, traceID := [], spanID := [] }
  exact h.2.mpr (by decide)

/-! ## `internal/models/normalizer.go`: Normalize -/

/-- Go map assignment `m[k] = v` on an association list: overwrite the
binding in place if the key is present, otherwise append it. -/
def upsert (k v : GoStr) : List (GoStr × GoStr) → List (GoStr × GoStr)
  | [] => [(k, v)]
  | (k', v') :: rest => if k' = k then (k, v) :: rest else (k', v') :: upsert k v rest

/-- One iteration of the metadata-normalization loop body: the trimmed,
lowercased key paired with the trimmed value. -/
def normMetaPair (kv : GoStr × GoStr) : GoStr × GoStr :=
  (goToLower (goTrimSpace kv.1), goTrimSpace kv.2)

/-- Rebuilding the `normalized` map by successive assignments. -/
def rebuildMeta (l : List (GoStr × GoStr)) : List (GoStr × GoStr) :=
  l.foldl (fun acc kv => upsert kv.1 kv.2 acc) []

/-- `(*LogEvent).Normalize`, transcribed field for field from
`normalizer.go`. -/
def LogEvent.normalize (e : LogEvent) : LogEvent :=
  { e with
    source := goToLower (goTrimSpace e.source),
    message := goTrimSpace e.message,
    id := goTrimSpace e.id,
    tenantID := goTrimSpace e.tenantID,
    severity := goToUpper (goTrimSpace e.severity),
    traceID := goTrimSpace e.traceID,
    spanID := goTrimSpace e.spanID,
    metadata := e.metadata.map fun m => rebuildMeta (m.map normMetaPair) }

/-! ### Character- and string-level lemmas for idempotence -/

theorem goLowerChar_idem (n : Nat) : goLowerChar (goLowerChar n) = goLowerChar n := by
  unfold goLowerChar; split_ifs <;> omega

theorem goUpperChar_idem (n : Nat) : goUpperChar (goUpperChar n) = goUpperChar n := by
  unfold goUpperChar; split_ifs <;> omega

theorem isSpaceCp_goLowerChar (n : Nat) : isSpaceCp (goLowerChar n) = isSpaceCp n := by
  unfold goLowerChar isSpaceCp; split_ifs with h
  · rw [decide_eq_decide]; omega
  · rfl

theorem isSpaceCp_goUpperChar (n : Nat) : isSpaceCp (goUpperChar n) = isSpaceCp n := by
  unfold goUpperChar isSpaceCp; split_ifs with h
  · rw [decide_eq_decide]; omega
  · rfl

theorem dropWhile_map_eq {α : Type} (f : α → α) (p : α → Bool) (l : List α)
    (hf : ∀ a, p (f a) = p a) :
    (l.map f).dropWhile p = (l.dropWhile p).map f := by
  induction l with
  | nil => rfl
  | cons a l ih =>
      simp only [List.map_cons, List.dropWhile_cons, hf a]
      split <;> simp [ih]

theorem goTrimSpace_map (f : Nat → Nat) (hf : ∀ n, isSpaceCp (f n) = isSpaceCp n)
    (l : GoStr) : goTrimSpace (l.map f) = (goTrimSpace l).map f := by
  unfold goTrimSpace trimRight trimLeft
  rw [dropWhile_map_eq f isSpaceCp l hf, ← List.map_reverse,
    dropWhile_map_eq f isSpaceCp _ hf, List.map_reverse]

theorem trimRight_eq_rdropWhile (m : GoStr) : trimRight m = List.rdropWhile isSpaceCp m := rfl

theorem goTrimSpace_idem (l : GoStr) : goTrimSpace (goTrimSpace l) = goTrimSpace l := by
  unfold goTrimSpace trimLeft
  rw [trimRight_eq_rdropWhile, trimRight_eq_rdropWhile]
  set p := isSpaceCp
  set A := l.dropWhile p with hA
  have h1 : (List.rdropWhile p A).dropWhile p = List.rdropWhile p A := by
    rw [List.dropWhile_eq_self_iff]
    intro hl
    have hpre : List.rdropWhile p A <+: A := List.rdropWhile_prefix p A
    have hAlen : 0 < A.length := lt_of_lt_of_le hl hpre.length_le
    have hget := List.dropWhile_get_zero_not p l hAlen
    have hEq : (List.rdropWhile p A).get ⟨0, hl⟩ = A.get ⟨0, hAlen⟩ := by
      simpa [List.get_eq_getElem] using hpre.getElem hl
    rw [hEq]
    exact hget
  rw [h1]
  exact List.rdropWhile_idempotent p A

theorem goToLower_goTrimSpace_idem (s : GoStr) :
    goToLower (goTrimSpace (goToLower (goTrimSpace s))) = goToLower (goTrimSpace s) := by
  unfold goToLower
  rw [goTrimSpace_map goLowerChar isSpaceCp_goLowerChar, goTrimSpace_idem, List.map_map]
  exact List.map_congr_left fun a _ => goLowerChar_idem a

theorem goToUpper_goTrimSpace_idem (s : GoStr) :
    goToUpper (goTrimSpace (goToUpper (goTrimSpace s))) = goToUpper (goTrimSpace s) := by
  unfold goToUpper
  rw [goTrimSpace_map goUpperChar isSpaceCp_goUpperChar, goTrimSpace_idem, List.map_map]
  exact List.map_congr_left fun a _ => goUpperChar_idem a

theorem normMetaPair_idem (kv : GoStr × GoStr) :
    normMetaPair (normMetaPair kv) = normMetaPair kv := by
  unfold normMetaPair
  simp [goToLower_goTrimSpace_idem, goTrimSpace_idem]

/-! ### Metadata map lemmas -/

/-- The key list of an association-list map. -/
def metaKeys (m : List (GoStr × GoStr)) : List GoStr := m.map Prod.fst

theorem metaKeys_upsert (k v : GoStr) (m : List (GoStr × GoStr)) :
    metaKeys (upsert k v m) =
      if k ∈ metaKeys m then metaKeys m else metaKeys m ++ [k] := by
  induction m with
  | nil => simp [upsert, metaKeys]
  | cons kv rest ih =>
      obtain ⟨k', v'⟩ := kv
      by_cases h : k' = k
      · subst h
        simp [upsert, metaKeys]
      · simp only [upsert, if_neg h, metaKeys, List.map_cons] at ih ⊢
        rw [ih]
        by_cases hm : k ∈ List.map Prod.fst rest <;>
          simp [hm, List.mem_cons, Ne.symm h]

theorem nodup_metaKeys_upsert (k v : GoStr) (m : List (GoStr × GoStr))
    (h : (metaKeys m).Nodup) : (metaKeys (upsert k v m)).Nodup := by
  rw [metaKeys_upsert]
  split
  · exact h
  · simpa [List.nodup_append] using ⟨h, by assumption⟩

theorem upsert_of_not_mem (k v : GoStr) (m : List (GoStr × GoStr))
    (h : k ∉ metaKeys m) : upsert k v m = m ++ [(k, v)] := by
  induction m with
  | nil => rfl
  | cons kv rest ih =>
      obtain ⟨k', v'⟩ := kv
      simp only [metaKeys, List.map_cons, List.mem_cons] at h
      push_neg at h
      simp only [upsert, List.cons_append]
      rw [if_neg fun hh => h.1 hh.symm, ih (by simpa [metaKeys] using h.2)]

theorem mem_of_mem_upsert {q : GoStr × GoStr} {k v : GoStr} {m : List (GoStr × GoStr)}
    (h : q ∈ upsert k v m) : q = (k, v) ∨ q ∈ m := by
  induction m with
  | nil => simpa [upsert] using h
  | cons kv rest ih =>
      obtain ⟨k', v'⟩ := kv
      by_cases hk : k' = k
      · subst hk
        rcases (by simpa [upsert] using h : q = (k', v) ∨ q ∈ rest) with h' | h'
        · exact Or.inl h'
        · exact Or.inr (List.mem_cons_of_mem _ h')
      · rcases (by simpa [upsert, hk] using h : q = (k', v') ∨ q ∈ upsert k v rest) with h' | h'
        · exact Or.inr (by simp [h'])
        · rcases ih h' with h'' | h''
          · exact Or.inl h''
          · exact Or.inr (List.mem_cons_of_mem _ h'')

theorem mem_of_mem_foldl_upsert (l : List (GoStr × GoStr)) :
    ∀ (acc : List (GoStr × GoStr)) (q : GoStr × GoStr),
      q ∈ l.foldl (fun acc kv => upsert kv.1 kv.2 acc) acc → q ∈ acc ∨ q ∈ l := by
  induction l with
  | nil => intro acc q h; exact Or.inl (by simpa using h)
  | cons kv rest ih =>
      intro acc q h
      rcases ih (upsert kv.1 kv.2 acc) q h with h' | h'
      · rcases mem_of_mem_upsert h' with h'' | h''
        · exact Or.inr (by simp [h''])
        · exact Or.inl h''
      · exact Or.inr (List.mem_cons_of_mem _ h')

theorem nodup_metaKeys_foldl_upsert (l : List (GoStr × GoStr)) :
    ∀ acc : List (GoStr × GoStr), (metaKeys acc).Nodup →
      (metaKeys (l.foldl (fun acc kv => upsert kv.1 kv.2 acc) acc)).Nodup := by
  induction l with
  | nil => intro acc h; simpa using h
  | cons kv rest ih =>
      intro acc h
      exact ih _ (nodup_metaKeys_upsert kv.1 kv.2 acc h)

theorem foldl_upsert_of_nodup (l : List (GoStr × GoStr)) :
    ∀ acc : List (GoStr × GoStr), (metaKeys (acc ++ l)).Nodup →
      l.foldl (fun acc kv => upsert kv.1 kv.2 acc) acc = acc ++ l := by
  induction l with
  | nil => intro acc _; simp
  | cons kv rest ih =>
      intro acc h
      have hkeys : (metaKeys acc ++ kv.1 :: metaKeys rest).Nodup := by
        simpa [metaKeys] using h
      have hnotin : kv.1 ∉ metaKeys acc := by
        rw [List.nodup_append] at hkeys
        intro hmem
        exact hkeys.2.2 hmem (by simp)
      simp only [List.foldl_cons]
      rw [upsert_of_not_mem kv.1 kv.2 acc hnotin]
      have hassoc : (acc ++ [(kv.1, kv.2)]) ++ rest = acc ++ kv :: rest := by
        simp
      rw [ih (acc ++ [(kv.1, kv.2)]) (by rw [hassoc]; exact h), hassoc]

theorem map_eq_self_of_fixed {α : Type} (f : α → α) (l : List α)
    (h : ∀ x ∈ l, f x = x) : l.map f = l := by
  induction l with
  | nil => rfl
  | cons a l ih => simp [h a (by simp), ih fun x hx => h x (by simp [hx])]

theorem rebuildMeta_norm_idem (m : List (GoStr × GoStr)) :
    rebuildMeta ((rebuildMeta (m.map normMetaPair)).map normMetaPair) =
      rebuildMeta (m.map normMetaPair) := by
  have hfix : ∀ q ∈ rebuildMeta (m.map normMetaPair), normMetaPair q = q := by
    intro q hq
    rcases mem_of_mem_foldl_upsert _ _ _ hq with h | h
    · simp at h
    · obtain ⟨p, _, rfl⟩ := List.mem_map.mp h
      exact normMetaPair_idem p
  rw [map_eq_self_of_fixed _ _ hfix]
  exact foldl_upsert_of_nodup _ []
    (by simpa using nodup_metaKeys_foldl_upsert (m.map normMetaPair) [] (by simp [metaKeys]))

/-- C3: `Normalize` is idempotent — a second application changes nothing. -/
theorem normalize_idempotent (e : LogEvent) :
    e.normalize.normalize = e.normalize := by
  obtain ⟨id, tenantID, timestamp, severity, source, message, metadata, traceID, spanID⟩ := e
  simp only [LogEvent.normalize, LogEvent.mk.injEq, goTrimSpace_idem,
    goToUpper_goTrimSpace_idem, goToLower_goTrimSpace_idem, true_and, and_true]
  cases metadata with
  | none => rfl
  | some m => exact congrArg some (rebuildMeta_norm_idem m)

/-! ## `internal/handlers/ingest.go`: processEvents and the response shape -/

/-- `handlers.LogEventInput` — the wire form, timestamp still a string. -/
structure LogEventInput where
  id        : GoStr
  tenantID  : GoStr
  timestamp : GoStr
  severity  : GoStr
  source    : GoStr
  message   : GoStr
  metadata  : Option (List (GoStr × GoStr))
  traceID   : GoStr
  spanID    : GoStr
  deriving Repr, DecidableEq

/-- The reason recorded in one `IngestError` entry. -/
inductive IErrKind where
  | conversionFailed
  | validationFailed (e : ValErr)
  | queueFull
  deriving Repr, DecidableEq

/-- `handlers.IngestError` — one indexed error entry. -/
structure IngestError where
  index   : Nat
  eventID : GoStr
  kind    : IErrKind
  deriving Repr, DecidableEq

/-- `handlers.IngestResponse` — the struct the handler JSON-encodes. -/
structure IngestResponse where
  success  : Bool
  accepted : Nat
  rejected : Nat
  errors   : List IngestError
  deriving Repr, DecidableEq

/-- `(*IngestHandler).convertInput`.  `models.ParseTimestamp` (a tour of Go's
`time.Parse` layouts) is abstracted as the oracle `parseTs`; the claims
settled here depend only on whether it succeeds, not on the instant it
returns. -/
def convertInput (parseTs : GoStr → Option Int) (input : LogEventInput) :
    Option LogEvent :=
  (parseTs input.timestamp).map fun ts =>
    { id := input.id, tenantID := input.tenantID, timestamp := ts,
      severity := input.severity, source := input.source,
      message := input.message, metadata := input.metadata,
      traceID := input.traceID, spanID := input.spanID }

/-- The per-event loop of `(*IngestHandler).processEvents`, from index `i`:
convert, normalize, validate, then the non-blocking channel send, whose
outcome at index `i` is the oracle `offerOk i`.  Returns
`(accepted, rejected, errors)`. -/
def processLoop (parseTs : GoStr → Option Int) (now : Int) (offerOk : Nat → Bool) :
    Nat → List LogEventInput → Nat × Nat × List IngestError
  | _, [] => (0, 0, [])
  | i, input :: rest =>
    match convertInput parseTs input with
    | none =>
        let (a, r, es) := processLoop parseTs now offerOk (i + 1) rest
        (a, r + 1, ⟨i, input.id, .conversionFailed⟩ :: es)
    | some ev0 =>
        let ev := ev0.normalize
        match validate now ev with
        | some verr =>
            let (a, r, es) := processLoop parseTs now offerOk (i + 1) rest
            (a, r + 1, ⟨i, ev.id, .validationFailed verr⟩ :: es)
        | none =>
            if offerOk i then
              let (a, r, es) := processLoop parseTs now offerOk (i + 1) rest
              (a + 1, r, es)
            else
              let (a, r, es) := processLoop parseTs now offerOk (i + 1) rest
              (a, r + 1, ⟨i, ev.id, .queueFull⟩ :: es)

/-- `(*IngestHandler).processEvents`: run the loop from index 0 and set
`Success := Rejected == 0`. -/
def processEvents (parseTs : GoStr → Option Int) (now : Int) (offerOk : Nat → Bool)
    (inputs : List LogEventInput) : IngestResponse :=
  let (a, r, es) := processLoop parseTs now offerOk 0 inputs
  { success := r = 0, accepted := a, rejected := r, errors := es }

theorem processLoop_spec (parseTs : GoStr → Option Int) (now : Int)
    (offerOk : Nat → Bool) :
    ∀ (inputs : List LogEventInput) (i : Nat),
      (processLoop parseTs now offerOk i inputs).1 +
          (processLoop parseTs now offerOk i inputs).2.1 = inputs.length ∧
      (processLoop parseTs now offerOk i inputs).2.2.length =
          (processLoop parseTs now offerOk i inputs).2.1 ∧
      (∀ er ∈ (processLoop parseTs now offerOk i inputs).2.2,
          i ≤ er.index ∧ er.index < i + inputs.length) ∧
      (processLoop parseTs now offerOk i inputs).2.2.Pairwise
          (fun x y => x.index < y.index) := by
  intro inputs
  induction inputs with
  | nil => intro i; simp [processLoop]
  | cons input rest ih =>
      intro i
      obtain ⟨ih1, ih2, ih3, ih4⟩ := ih (i + 1)
      rcases heq : processLoop parseTs now offerOk (i + 1) rest with ⟨a, r, es⟩
      rw [heq] at ih1 ih2 ih3 ih4
      simp only at ih1 ih2 ih3 ih4
      have hcons : ∀ (eid : GoStr) (k : IErrKind),
          (∀ er ∈ (⟨i, eid, k⟩ : IngestError) :: es,
              i ≤ er.index ∧ er.index < i + (input :: rest).length) ∧
          ((⟨i, eid, k⟩ : IngestError) :: es).Pairwise
              (fun x y => x.index < y.index) := by
        intro eid k
        refine ⟨?_, ?_⟩
        · intro er hm
          rcases List.mem_cons.mp hm with h | h
          · subst h
            refine ⟨le_refl _, ?_⟩
            simp only [List.length_cons]
            omega
          · obtain ⟨h1, h2⟩ := ih3 er h
            refine ⟨by omega, ?_⟩
            simp only [List.length_cons]
            omega
        · refine List.pairwise_cons.mpr ⟨?_, ih4⟩
          intro er hm
          have := (ih3 er hm).1
          show i < er.index
          omega
      cases hc : convertInput parseTs input with
      | none =>
          simp only [processLoop, hc, heq]
          refine ⟨by simp only [List.length_cons]; omega,
            by simp only [List.length_cons, ih2], ?_, ?_⟩
          · exact (hcons input.id .conversionFailed).1
          · exact (hcons input.id .conversionFailed).2
      | some ev0 =>
          cases hv : validate now ev0.normalize with
          | some verr =>
              simp only [processLoop, hc, hv, heq]
              refine ⟨by simp only [List.length_cons]; omega,
                by simp only [List.length_cons, ih2], ?_, ?_⟩
              · exact (hcons ev0.normalize.id (.validationFailed verr)).1
              · exact (hcons ev0.normalize.id (.validationFailed verr)).2
          | none =>
              cases ho : offerOk i with
              | true =>
                  simp only [processLoop, hc, hv, ho, heq, if_true]
                  refine ⟨by simp only [List.length_cons]; omega, ih2, ?_, ih4⟩
                  intro er hm
                  obtain ⟨h1, h2⟩ := ih3 er hm
                  refine ⟨by omega, ?_⟩
                  simp only [List.length_cons]
                  omega
              | false =>
                  simp only [processLoop, hc, hv, ho, heq, Bool.false_eq_true,
                    if_false]
                  refine ⟨by simp only [List.length_cons]; omega,
                    by simp only [List.length_cons, ih2], ?_, ?_⟩
                  · exact (hcons ev0.normalize.id .queueFull).1
                  · exact (hcons ev0.normalize.id .queueFull).2

/-- C2: for every parsed ingest request, `accepted + rejected` equals the
input length, `errors` has exactly `rejected` entries, and the error
indices are pairwise distinct and in range. -/
theorem processEvents_response_arithmetic (parseTs : GoStr → Option Int)
    (now : Int) (offerOk : Nat → Bool) (inputs : List LogEventInput) :
    (processEvents parseTs now offerOk inputs).accepted +
        (processEvents parseTs now offerOk inputs).rejected = inputs.length ∧
    (processEvents parseTs now offerOk inputs).errors.length =
        (processEvents parseTs now offerOk inputs).rejected ∧
    (processEvents parseTs now offerOk inputs).errors.Pairwise
        (fun x y => x.index ≠ y.index) ∧
    ∀ er ∈ (processEvents parseTs now offerOk inputs).errors,
        er.index < inputs.length := by
  obtain ⟨h1, h2, h3, h4⟩ := processLoop_spec parseTs now offerOk inputs 0
  rcases heq : processLoop parseTs now offerOk 0 inputs with ⟨a, r, es⟩
  rw [heq] at h1 h2 h3 h4
  simp only at h1 h2 h3 h4
  refine ⟨by simp [processEvents, heq, h1], by simp [processEvents, heq, h2], ?_, ?_⟩
  · simp only [processEvents, heq]
    exact h4.imp fun h => Nat.ne_of_lt h
  · simp only [processEvents, heq]
    intro er hm
    simpa using (h3 er hm).2

/-- The set of top-level keys `encoding/json` emits for an `IngestResponse`,
read off the struct tags in `ingest.go`: `success`, `accepted` and
`rejected` are unconditional; `errors` carries `omitempty`, so it is absent
when the slice is empty; the struct declares no `batch_id` field. -/
def ingestResponseJSONFields (r : IngestResponse) : List String :=
  ["success", "accepted", "rejected"] ++ (if r.errors.isEmpty then [] else ["errors"])

/-- A well-formed single-event payload used as a concrete request. -/
def sampleInput : LogEventInput :=
  { id := gostr "e1", tenantID := gostr "t1",
    timestamp := gostr "2024-01-15T10:30:00Z", severity := gostr "INFO",
    source := gostr "api", message := gostr "hi", metadata := none,
    traceID := [], spanID := [] }

/-- C4 counterexample: for a successfully parsed request whose one event is
accepted, the encoded response contains neither a `batch_id` field (the
struct has none) nor an `errors` field (omitted when empty), refuting the
claim that every response carries `batch_id`. -/
theorem ingest_response_missing_batch_id :
    (processEvents (fun _ => some 50) 100 (fun _ => true) [sampleInput]).accepted = 1 ∧
    (processEvents (fun _ => some 50) 100 (fun _ => true) [sampleInput]).rejected = 0 ∧
    "batch_id" ∉ ingestResponseJSONFields
      (processEvents (fun _ => some 50) 100 (fun _ => true) [sampleInput]) ∧
    "errors" ∉ ingestResponseJSONFields
      (processEvents (fun _ => some 50) 100 (fun _ => true) [sampleInput]) := by
  decide

/-- C4 amended: every response built for a successfully parsed ingest
request contains `success`, `accepted` and `rejected`; it contains
`errors[]` (each entry carrying its input index) exactly when at least one
event was rejected; it never contains a `batch_id` field. -/
theorem ingest_response_fields (parseTs : GoStr → Option Int) (now : Int)
    (offerOk : Nat → Bool) (inputs : List LogEventInput) :
    "success" ∈ ingestResponseJSONFields (processEvents parseTs now offerOk inputs) ∧
    "accepted" ∈ ingestResponseJSONFields (processEvents parseTs now offerOk inputs) ∧
    "rejected" ∈ ingestResponseJSONFields (processEvents parseTs now offerOk inputs) ∧
    ("errors" ∈ ingestResponseJSONFields (processEvents parseTs now offerOk inputs) ↔
      (processEvents parseTs now offerOk inputs).rejected ≠ 0) ∧
    "batch_id" ∉ ingestResponseJSONFields (processEvents parseTs now offerOk inputs) := by
  obtain ⟨h1, h2, h3, h4⟩ := processLoop_spec parseTs now offerOk inputs 0
  rcases heq : processLoop parseTs now offerOk 0 inputs with ⟨a, r, es⟩
  rw [heq] at h2
  simp only at h2
  have hre : (processEvents parseTs now offerOk inputs).rejected = r := by
    simp [processEvents, heq]
  have hes : (processEvents parseTs now offerOk inputs).errors = es := by
    simp [processEvents, heq]
  cases hemp : es.isEmpty with
  | true =>
      have : r = 0 := by
        rw [← h2, List.isEmpty_iff_length_eq_zero.mp hemp]
      simp [ingestResponseJSONFields, hes, hemp, hre, this]
  | false =>
      have : r ≠ 0 := by
        intro h0
        rw [h0] at h2
        rw [List.isEmpty_iff_length_eq_zero.mpr h2] at hemp
        simp at hemp
      simp [ingestResponseJSONFields, hes, hemp, hre, this]

/-! ## Kafka producer: retry policy, Publish, PublishBatch, Close -/

/-- Outcome of one `writer.WriteMessages` attempt. -/
inductive WriteOutcome where
  | ok | canceled | deadline | fail (code : Nat)
  deriving Repr, DecidableEq

/-- What `ctx.Err()` reports when the context fires. -/
inductive CtxKind where
  | canceled | deadline
  deriving Repr, DecidableEq

/-- Result of a producer operation. -/
inductive PubResult where
  | ok
  | producerClosed
  | serializeFailed
  | ctxCanceled
  | ctxDeadline
  | exhausted (lastCode attempts : Nat)
  | closeErrors
  deriving Repr, DecidableEq

/-- The `fail` code of a write outcome (`0` for the other constructors). -/
def failCodeD : WriteOutcome → Nat
  | .fail c => c
  | _ => 0

/-- The retry loop shared by `publishWithRetry` and `publishBatchWithRetry`:
attempts are numbered from 0; before attempt `att > 0` the loop waits the
current backoff (unless the context fires during the wait, oracle
`waitCancel att`) and then doubles it; a write failing with
cancellation/deadline is surfaced at once; when `maxRetries + 1` attempts
are exhausted the last failure code and the attempt count are returned.
Returns `(result, attempts performed, backoffs waited)`; `fuel` is the
number of loop iterations left (`maxRetries + 1` at entry). -/
def retryLoop (write : Nat → WriteOutcome) (waitCancel : Nat → Option CtxKind)
    (maxRetries : Nat) : Nat → Nat → Nat → Nat → PubResult × Nat × List Nat
  | 0, _, _, lastErr => (.exhausted lastErr (maxRetries + 1), 0, [])
  | fuel + 1, att, back, lastErr =>
      if att = 0 then
        match write att with
        | .ok => (.ok, 1, [])
        | .canceled => (.ctxCanceled, 1, [])
        | .deadline => (.ctxDeadline, 1, [])
        | .fail c =>
            let (res, n, ws) := retryLoop write waitCancel maxRetries fuel (att + 1) back c
            (res, n + 1, ws)
      else
        match waitCancel att with
        | some .canceled => (.ctxCanceled, 0, [])
        | some .deadline => (.ctxDeadline, 0, [])
        | none =>
            match write att with
            | .ok => (.ok, 1, [back])
            | .canceled => (.ctxCanceled, 1, [back])
            | .deadline => (.ctxDeadline, 1, [back])
            | .fail c =>
                let (res, n, ws) :=
                  retryLoop write waitCancel maxRetries fuel (att + 1) (2 * back) c
                (res, n + 1, back :: ws)

/-- `(*Producer).publishWithRetry`: the loop entered at attempt 0 with the
configured initial backoff. -/
def publishWithRetry (maxRetries backoff0 : Nat) (write : Nat → WriteOutcome)
    (waitCancel : Nat → Option CtxKind) : PubResult × Nat × List Nat :=
  retryLoop write waitCancel maxRetries (maxRetries + 1) 0 backoff0 0

/-- `(*Producer).publishBatchWithRetry` — identical control flow over the
batch of messages. -/
def publishBatchWithRetry (maxRetries backoff0 : Nat) (write : Nat → WriteOutcome)
    (waitCancel : Nat → Option CtxKind) : PubResult × Nat × List Nat :=
  retryLoop write waitCancel maxRetries (maxRetries + 1) 0 backoff0 0

theorem retryLoop_spec (write : Nat → WriteOutcome) (waitCancel : Nat → Option CtxKind)
    (maxRetries : Nat) :
    ∀ (fuel att back lastErr : Nat) (res : PubResult) (n : Nat) (ws : List Nat),
      fuel + att = maxRetries + 1 →
      (fuel = 0 → lastErr = failCodeD (write maxRetries)) →
      retryLoop write waitCancel maxRetries fuel att back lastErr = (res, n, ws) →
      n ≤ fuel ∧
      ws = (List.range ws.length).map (fun j => back * 2 ^ j) ∧
      ws.length + (if att = 0 then 1 else 0) ≤ fuel ∧
      (∀ j, j < n → write (att + j) = .canceled → res = .ctxCanceled ∧ n = j + 1) ∧
      (∀ j, j < n → write (att + j) = .deadline → res = .ctxDeadline ∧ n = j + 1) ∧
      ((∀ k, att ≤ k → k ≤ maxRetries → ∃ c, write k = .fail c) →
        (∀ k, waitCancel k = none) →
        res = .exhausted (failCodeD (write maxRetries)) (maxRetries + 1) ∧ n = fuel) := by
  intro fuel
  induction fuel with
  | zero =>
      intro att back lastErr res n ws hfa hlast heq
      simp only [retryLoop, Prod.mk.injEq] at heq
      obtain ⟨hres, hn, hws⟩ := heq
      subst hres hn hws
      have hatt : att ≠ 0 := by omega
      refine ⟨le_refl _, by simp, by simp [hatt], ?_, ?_, ?_⟩
      · intro j hj; omega
      · intro j hj; omega
      · intro _ _
        exact ⟨by rw [hlast rfl], rfl⟩
  | succ fuel ih =>
      intro att back lastErr res n ws hfa hlast heq
      have hattle : att ≤ maxRetries := by omega
      by_cases hatt : att = 0
      · subst hatt
        cases hw : write 0 with
        | ok =>
            simp only [retryLoop, hw, eq_self_iff_true, if_true, Prod.mk.injEq] at heq
            obtain ⟨hres, hn, hws⟩ := heq
            subst hres hn hws
            refine ⟨by omega, by simp, by simp, ?_, ?_, ?_⟩
            · intro j hj hc
              interval_cases j
              simp [hw] at hc
            · intro j hj hc
              interval_cases j
              simp [hw] at hc
            · intro hfail _
              obtain ⟨c, hc⟩ := hfail 0 (le_refl _) (by omega)
              simp [hw] at hc
        | canceled =>
            simp only [retryLoop, hw, eq_self_iff_true, if_true, Prod.mk.injEq] at heq
            obtain ⟨hres, hn, hws⟩ := heq
            subst hres hn hws
            refine ⟨by omega, by simp, by simp, ?_, ?_, ?_⟩
            · intro j hj _
              interval_cases j
              exact ⟨rfl, rfl⟩
            · intro j hj hc
              interval_cases j
              simp [hw] at hc
            · intro hfail _
              obtain ⟨c, hc⟩ := hfail 0 (le_refl _) (by omega)
              simp [hw] at hc
        | deadline =>
            simp only [retryLoop, hw, eq_self_iff_true, if_true, Prod.mk.injEq] at heq
            obtain ⟨hres, hn, hws⟩ := heq
            subst hres hn hws
            refine ⟨by omega, by simp, by simp, ?_, ?_, ?_⟩
            · intro j hj hc
              interval_cases j
              simp [hw] at hc
            · intro j hj _
              interval_cases j
              exact ⟨rfl, rfl⟩
            · intro hfail _
              obtain ⟨c, hc⟩ := hfail 0 (le_refl _) (by omega)
              simp [hw] at hc
        | fail c =>
            rcases hrec : retryLoop write waitCancel maxRetries fuel 1 back c
              with ⟨res', n', ws'⟩
            simp only [retryLoop, hw, hrec, eq_self_iff_true, if_true, Prod.mk.injEq] at heq
            obtain ⟨hres, hn, hws⟩ := heq
            subst hres hn hws
            have hlast' : fuel = 0 → c = failCodeD (write maxRetries) := by
              intro h0
              have : maxRetries = 0 := by omega
              subst this
              simp [hw, failCodeD]
            obtain ⟨g1, g2, g3, g4, g5, g6⟩ :=
              ih 1 back c res' n' ws' (by omega) hlast' hrec
            refine ⟨by omega, g2, by simp only [Nat.one_ne_zero, if_false,
              eq_self_iff_true, if_true] at g3 ⊢; omega, ?_, ?_, ?_⟩
            · intro j hj hc
              cases j with
              | zero => simp [hw] at hc
              | succ j' =>
                  obtain ⟨h1, h2⟩ := g4 j' (by omega) (by
                    simpa [Nat.add_comm, Nat.add_left_comm] using hc)
                  exact ⟨h1, by omega⟩
            · intro j hj hc
              cases j with
              | zero => simp [hw] at hc
              | succ j' =>
                  obtain ⟨h1, h2⟩ := g5 j' (by omega) (by
                    simpa [Nat.add_comm, Nat.add_left_comm] using hc)
                  exact ⟨h1, by omega⟩
            · intro hfail hwc
              obtain ⟨h1, h2⟩ := g6 (fun k hk1 hk2 => hfail k (by omega) hk2) hwc
              exact ⟨h1, by omega⟩
      · cases hwc : waitCancel att with
        | some ck =>
            cases ck with
            | canceled =>
                simp only [retryLoop, if_neg hatt, hwc, Prod.mk.injEq] at heq
                obtain ⟨hres, hn, hws⟩ := heq
                subst hres hn hws
                refine ⟨by omega, by simp, by simp [hatt], ?_, ?_, ?_⟩
                · intro j hj; omega
                · intro j hj; omega
                · intro _ hnone
                  rw [hnone att] at hwc
                  simp at hwc
            | deadline =>
                simp only [retryLoop, if_neg hatt, hwc, Prod.mk.injEq] at heq
                obtain ⟨hres, hn, hws⟩ := heq
                subst hres hn hws
                refine ⟨by omega, by simp, by simp [hatt], ?_, ?_, ?_⟩
                · intro j hj; omega
                · intro j hj; omega
                · intro _ hnone
                  rw [hnone att] at hwc
                  simp at hwc
        | none =>
            cases hw : write att with
            | ok =>
                simp only [retryLoop, if_neg hatt, hwc, hw, Prod.mk.injEq] at heq
                obtain ⟨hres, hn, hws⟩ := heq
                subst hres hn hws
                refine ⟨by omega, by simp [List.range_succ], by simp [hatt], ?_, ?_, ?_⟩
                · intro j hj hc
                  interval_cases j
                  simp only [Nat.add_zero] at hc
                  simp [hw] at hc
                · intro j hj hc
                  interval_cases j
                  simp only [Nat.add_zero] at hc
                  simp [hw] at hc
                · intro hfail _
                  obtain ⟨c, hc⟩ := hfail att (le_refl _) hattle
                  simp [hw] at hc
            | canceled =>
                simp only [retryLoop, if_neg hatt, hwc, hw, Prod.mk.injEq] at heq
                obtain ⟨hres, hn, hws⟩ := heq
                subst hres hn hws
                refine ⟨by omega, by simp [List.range_succ], by simp [hatt], ?_, ?_, ?_⟩
                · intro j hj _
                  interval_cases j
                  exact ⟨rfl, rfl⟩
                · intro j hj hc
                  interval_cases j
                  simp only [Nat.add_zero] at hc
                  simp [hw] at hc
                · intro hfail _
                  obtain ⟨c, hc⟩ := hfail att (le_refl _) hattle
                  simp [hw] at hc
            | deadline =>
                simp only [retryLoop, if_neg hatt, hwc, hw, Prod.mk.injEq] at heq
                obtain ⟨hres, hn, hws⟩ := heq
                subst hres hn hws
                refine ⟨by omega, by simp [List.range_succ], by simp [hatt], ?_, ?_, ?_⟩
                · intro j hj hc
                  interval_cases j
                  simp only [Nat.add_zero] at hc
                  simp [hw] at hc
                · intro j hj _
                  interval_cases j
                  exact ⟨rfl, rfl⟩
                · intro hfail _
                  obtain ⟨c, hc⟩ := hfail att (le_refl _) hattle
                  simp [hw] at hc
            | fail c =>
                rcases hrec : retryLoop write waitCancel maxRetries fuel (att + 1)
                    (2 * back) c with ⟨res', n', ws'⟩
                simp only [retryLoop, if_neg hatt, hwc, hw, hrec, Prod.mk.injEq] at heq
                obtain ⟨hres, hn, hws⟩ := heq
                subst hres hn hws
                have hlast' : fuel = 0 → c = failCodeD (write maxRetries) := by
                  intro h0
                  have : att = maxRetries := by omega
                  subst this
                  simp [hw, failCodeD]
                obtain ⟨g1, g2, g3, g4, g5, g6⟩ :=
                  ih (att + 1) (2 * back) c res' n' ws' (by omega) hlast' hrec
                have hws_geo : back :: ws' =
                    (List.range (back :: ws').length).map (fun j => back * 2 ^ j) := by
                  rw [List.length_cons, List.range_succ_eq_map, List.map_cons,
                    List.map_map]
                  refine congrArg₂ _ (by norm_num) ?_
                  conv_lhs => rw [g2]
                  exact List.map_congr_left fun j _ => by
                    simp only [Function.comp_apply, pow_succ]
                    ring
                refine ⟨by omega, hws_geo, ?_, ?_, ?_, ?_⟩
                · simp only [List.length_cons, if_neg hatt]
                  simp only [Nat.succ_ne_zero, if_false] at g3
                  omega
                · intro j hj hc
                  cases j with
                  | zero =>
                      simp only [Nat.add_zero] at hc
                      simp [hw] at hc
                  | succ j' =>
                      obtain ⟨h1, h2⟩ := g4 j' (by omega) (by
                        simpa [Nat.add_comm, Nat.add_left_comm] using hc)
                      exact ⟨h1, by omega⟩
                · intro j hj hc
                  cases j with
                  | zero =>
                      simp only [Nat.add_zero] at hc
                      simp [hw] at hc
                  | succ j' =>
                      obtain ⟨h1, h2⟩ := g5 j' (by omega) (by
                        simpa [Nat.add_comm, Nat.add_left_comm] using hc)
                      exact ⟨h1, by omega⟩
                · intro hfail hwcall
                  obtain ⟨h1, h2⟩ := g6 (fun k hk1 hk2 => hfail k (by omega) hk2) hwcall
                  exact ⟨h1, by omega⟩

/-- C5: a publish (or batch-publish) call makes at most `maxRetries + 1`
write attempts; the waits before retries are the initial backoff doubled
each time; a write attempt failing with cancellation or deadline is
surfaced immediately with no further attempts; exhausting all attempts
returns the last failure code together with the attempt count; and the
batch loop is the very same procedure. -/
theorem publish_retry_policy (maxRetries backoff0 : Nat) (write : Nat → WriteOutcome)
    (waitCancel : Nat → Option CtxKind) :
    (publishWithRetry maxRetries backoff0 write waitCancel).2.1 ≤ maxRetries + 1 ∧
    (publishWithRetry maxRetries backoff0 write waitCancel).2.2 =
      (List.range (publishWithRetry maxRetries backoff0 write waitCancel).2.2.length).map
        (fun j => backoff0 * 2 ^ j) ∧
    (publishWithRetry maxRetries backoff0 write waitCancel).2.2.length ≤ maxRetries ∧
    (∀ j, j < (publishWithRetry maxRetries backoff0 write waitCancel).2.1 →
      write j = .canceled →
      (publishWithRetry maxRetries backoff0 write waitCancel).1 = .ctxCanceled ∧
      (publishWithRetry maxRetries backoff0 write waitCancel).2.1 = j + 1) ∧
    (∀ j, j < (publishWithRetry maxRetries backoff0 write waitCancel).2.1 →
      write j = .deadline →
      (publishWithRetry maxRetries backoff0 write waitCancel).1 = .ctxDeadline ∧
      (publishWithRetry maxRetries backoff0 write waitCancel).2.1 = j + 1) ∧
    ((∀ k, k ≤ maxRetries → ∃ c, write k = .fail c) →
      (∀ k, waitCancel k = none) →
      (publishWithRetry maxRetries backoff0 write waitCancel).1 =
        .exhausted (failCodeD (write maxRetries)) (maxRetries + 1) ∧
      (publishWithRetry maxRetries backoff0 write waitCancel).2.1 = maxRetries + 1) ∧
    publishBatchWithRetry maxRetries backoff0 write waitCancel =
      publishWithRetry maxRetries backoff0 write waitCancel := by
  rcases heq : retryLoop write waitCancel maxRetries (maxRetries + 1) 0 backoff0 0
    with ⟨res, n, ws⟩
  obtain ⟨g1, g2, g3, g4, g5, g6⟩ :=
    retryLoop_spec write waitCancel maxRetries (maxRetries + 1) 0 backoff0 0 res n ws
      (by omega) (fun h => absurd h (by omega)) heq
  have hpw : publishWithRetry maxRetries backoff0 write waitCancel = (res, n, ws) := heq
  rw [hpw]
  simp only [Nat.zero_add] at g4 g5
  simp only [eq_self_iff_true, if_true] at g3
  refine ⟨g1, g2, by show ws.length ≤ maxRetries; omega, g4, g5, ?_, heq⟩
  intro hfail hwc
  exact g6 (fun k _ hk => hfail k hk) hwc

/-- C5 witness: with `max_retries = 2` and every attempt failing with
code 7, the call returns the exhaustion error after exactly 3 attempts. -/
theorem publish_retry_policy_witness :
    (publishWithRetry 2 5 (fun _ => .fail 7) (fun _ => none)).1 = .exhausted 7 3 ∧
    (publishWithRetry 2 5 (fun _ => .fail 7) (fun _ => none)).2.1 = 3 := by
  have h := publish_retry_policy 2 5 (fun _ => .fail 7) (fun _ => none)
  exact h.2.2.2.2.2.1 (fun k _ => ⟨7, rfl⟩) (fun _ => rfl)

/-! ## `internal/models/envelope.go`: Envelope -/

/-- `models.Envelope`.  `receivedAt` stands for the `time.Now().UTC()`
instant; zero values of the Go struct (`batch_id`, `batch_index`) are the
empty string and 0. -/
structure Envelope where
  event        : LogEvent
  receivedAt   : Int
  ingestNode   : GoStr
  batchID      : GoStr
  batchIndex   : Nat
  retryCount   : Nat
  partitionKey : GoStr
  deriving Repr, DecidableEq

/-- `models.NewEnvelope`; `now` stands for the `time.Now().UTC()` call. -/
def NewEnvelope (event : LogEvent) (ingestNode : GoStr) (now : Int) : Envelope :=
  { event := event, receivedAt := now, ingestNode := ingestNode,
    batchID := [], batchIndex := 0, retryCount := 0,
    partitionKey := event.tenantID }

/-- `(*Envelope).WithBatch`. -/
def Envelope.WithBatch (e : Envelope) (batchID : GoStr) (index : Nat) : Envelope :=
  { e with batchID := batchID, batchIndex := index }

/-! ## Producer state and operations -/

/-- The mutable state of a `kafka.Producer`: the `closed` flag and the
three counters. -/
structure ProducerState where
  closed         : Bool
  messagesSent   : Nat
  messagesFailed : Nat
  bytesWritten   : Nat
  deriving Repr, DecidableEq

/-- Observable actions of a producer call, used to state that a call did
not serialize, write, or close anything. -/
inductive PAction where
  | serialize
  | writeAttempt
  | waitBackoff (d : Nat)
  | closeWriter
  deriving Repr, DecidableEq

/-- The actions performed by a retry loop that made `n` attempts and
waited the backoffs `ws` (as an action multiset; interleaving is not
tracked). -/
def retryTrace (n : Nat) (ws : List Nat) : List PAction :=
  ws.map .waitBackoff ++ List.replicate n .writeAttempt

/-- `(*Producer).Publish`: closed-check, `json.Marshal` (oracle `ser`,
`some size` on success), pool borrow (oracle `borrowCancel`), then
`publishWithRetry`; counters advance as in the source. -/
def Publish (maxRetries backoff0 : Nat) (st : ProducerState) (ser : Option Nat)
    (borrowCancel : Option CtxKind) (write : Nat → WriteOutcome)
    (waitCancel : Nat → Option CtxKind) : PubResult × ProducerState × List PAction :=
  if st.closed then (.producerClosed, st, [])
  else
    match ser with
    | none => (.serializeFailed,
        { st with messagesFailed := st.messagesFailed + 1 }, [.serialize])
    | some size =>
      match borrowCancel with
      | some .canceled => (.ctxCanceled,
          { st with messagesFailed := st.messagesFailed + 1 }, [.serialize])
      | some .deadline => (.ctxDeadline,
          { st with messagesFailed := st.messagesFailed + 1 }, [.serialize])
      | none =>
        let r := publishWithRetry maxRetries backoff0 write waitCancel
        if r.1 = .ok then
          (.ok, { st with messagesSent := st.messagesSent + 1,
                          bytesWritten := st.bytesWritten + size },
            .serialize :: retryTrace r.2.1 r.2.2)
        else
          (r.1, { st with messagesFailed := st.messagesFailed + 1 },
            .serialize :: retryTrace r.2.1 r.2.2)

/-- `(*Producer).PublishBatch`: closed-check; empty input returns ok at
once; each envelope is serialized (oracle `ser`), failures are counted in
`messagesFailed` and skipped; if nothing serialized, ok without borrowing
a writer; otherwise borrow and run `publishBatchWithRetry`, advancing the
counters over the serialized messages only. -/
def PublishBatch (maxRetries backoff0 : Nat) (st : ProducerState)
    (envs : List Envelope) (ser : Envelope → Option Nat)
    (borrowCancel : Option CtxKind) (write : Nat → WriteOutcome)
    (waitCancel : Nat → Option CtxKind) : PubResult × ProducerState × List PAction :=
  if st.closed then (.producerClosed, st, [])
  else if envs = [] then (.ok, st, [])
  else
    let sizes := envs.filterMap ser
    let st1 := { st with
      messagesFailed := st.messagesFailed + (envs.length - sizes.length) }
    let serTrace := List.replicate envs.length PAction.serialize
    if sizes = [] then (.ok, st1, serTrace)
    else
      match borrowCancel with
      | some .canceled => (.ctxCanceled,
          { st1 with messagesFailed := st1.messagesFailed + sizes.length }, serTrace)
      | some .deadline => (.ctxDeadline,
          { st1 with messagesFailed := st1.messagesFailed + sizes.length }, serTrace)
      | none =>
        let r := publishBatchWithRetry maxRetries backoff0 write waitCancel
        if r.1 = .ok then
          (.ok, { st1 with messagesSent := st1.messagesSent + sizes.length,
                           bytesWritten := st1.bytesWritten + sizes.sum },
            serTrace ++ retryTrace r.2.1 r.2.2)
        else
          (r.1, { st1 with messagesFailed := st1.messagesFailed + sizes.length },
            serTrace ++ retryTrace r.2.1 r.2.2)

/-- `(*Producer).Close`: `closed.Swap(true)`; a second call returns ok
without touching the writers; the first call closes every pool writer
(oracle `closeErr i`) and reports an aggregate error if any failed. -/
def Close (poolSize : Nat) (st : ProducerState) (closeErr : Nat → Bool) :
    PubResult × ProducerState × List PAction :=
  if st.closed then (.ok, st, [])
  else
    ((if (List.range poolSize).any closeErr then .closeErrors else .ok),
      { st with closed := true }, List.replicate poolSize .closeWriter)

/-- C9: `Close` is idempotent — after a first `Close`, a second `Close`
returns ok without closing any writer — and every `Publish` or
`PublishBatch` on the closed producer returns the `ProducerClosed` error
with no state change and no action (no serialization, no write). -/
theorem producer_close_idempotent (poolSize : Nat) (st : ProducerState)
    (ce ce2 : Nat → Bool) (maxRetries backoff0 : Nat) (ser : Option Nat)
    (envs : List Envelope) (serB : Envelope → Option Nat) (bc : Option CtxKind)
    (write : Nat → WriteOutcome) (wc : Nat → Option CtxKind) :
    ((Close poolSize st ce).2.1).closed = true ∧
    Close poolSize ((Close poolSize st ce).2.1) ce2 =
      (.ok, (Close poolSize st ce).2.1, []) ∧
    Publish maxRetries backoff0 ((Close poolSize st ce).2.1) ser bc write wc =
      (.producerClosed, (Close poolSize st ce).2.1, []) ∧
    PublishBatch maxRetries backoff0 ((Close poolSize st ce).2.1) envs serB bc write wc =
      (.producerClosed, (Close poolSize st ce).2.1, []) := by
  by_cases hc : st.closed
  · simp [Close, hc, Publish, PublishBatch]
  · simp [Close, hc, Publish, PublishBatch]

/-- C10: on an open producer, `PublishBatch` returns ok immediately for an
empty batch; when every envelope fails serialization it counts them all in
`messagesFailed` and returns ok without a single write attempt; when the
batch write succeeds it returns ok having counted exactly the serializable
envelopes as sent (so an ok result does not mean every passed envelope was
delivered); and in every case the serialization failures are charged to
`messagesFailed`. -/
theorem publish_batch_skips_serialization_failures (maxRetries backoff0 : Nat)
    (st : ProducerState) (envs : List Envelope) (serB : Envelope → Option Nat)
    (bc : Option CtxKind) (write : Nat → WriteOutcome) (wc : Nat → Option CtxKind)
    (hopen : st.closed = false) :
    PublishBatch maxRetries backoff0 st [] serB bc write wc = (.ok, st, []) ∧
    ((∀ e ∈ envs, serB e = none) → envs ≠ [] →
      (PublishBatch maxRetries backoff0 st envs serB bc write wc).1 = .ok ∧
      PAction.writeAttempt ∉
        (PublishBatch maxRetries backoff0 st envs serB bc write wc).2.2 ∧
      ((PublishBatch maxRetries backoff0 st envs serB bc write wc).2.1).messagesFailed =
        st.messagesFailed + envs.length ∧
      ((PublishBatch maxRetries backoff0 st envs serB bc write wc).2.1).messagesSent =
        st.messagesSent) ∧
    ((publishBatchWithRetry maxRetries backoff0 write wc).1 = .ok → bc = none →
      envs.filterMap serB ≠ [] →
      (PublishBatch maxRetries backoff0 st envs serB bc write wc).1 = .ok ∧
      ((PublishBatch maxRetries backoff0 st envs serB bc write wc).2.1).messagesSent =
        st.messagesSent + (envs.filterMap serB).length) ∧
    (envs ≠ [] →
      st.messagesFailed + (envs.length - (envs.filterMap serB).length) ≤
        ((PublishBatch maxRetries backoff0 st envs serB bc write wc).2.1).messagesFailed) := by
  refine ⟨by simp [PublishBatch, hopen], ?_, ?_, ?_⟩
  · intro hall hne
    have hnil : envs.filterMap serB = [] := by
      rw [List.filterMap_eq_nil_iff]
      exact hall
    simp only [PublishBatch, hopen, Bool.false_eq_true, if_false, if_neg hne, hnil,
      eq_self_iff_true, if_true, List.length_nil, Nat.sub_zero]
    refine ⟨by trivial, ?_, by trivial, by trivial⟩
    intro hmem
    have := List.eq_of_mem_replicate hmem
    exact PAction.noConfusion this
  · intro hok hbc hne
    have hne' : envs ≠ [] := by
      intro h
      rw [h] at hne
      simp at hne
    simp only [PublishBatch, hopen, Bool.false_eq_true, if_false, if_neg hne',
      if_neg hne, hbc, hok, eq_self_iff_true, if_true]
    exact ⟨by trivial, by trivial⟩
  · intro hne
    by_cases hnil : envs.filterMap serB = []
    · simp [PublishBatch, hopen, hne, hnil]
    · cases bc with
      | some ck =>
          cases ck <;> simp [PublishBatch, hopen, hne, hnil] <;> omega
      | none =>
          by_cases hok : (publishBatchWithRetry maxRetries backoff0 write wc).1 = .ok <;>
            simp [PublishBatch, hopen, hne, hnil, hok] <;> omega

/-- C10 witness: an open producer, two envelopes that both fail to
serialize — `PublishBatch` returns ok, performs no write attempt, and
counts both in `messagesFailed`. -/
theorem publish_batch_skips_serialization_failures_witness :
    (PublishBatch 2 5 ⟨false, 0, 0, 0⟩
        [NewEnvelope ⟨[], [], 1, [], [], [], none, [], []⟩ [] 0,
         NewEnvelope ⟨[], [], 2, [], [], [], none, [], []⟩ [] 0]
        (fun _ => none) none (fun _ => .ok) (fun _ => none)).1 = .ok ∧
    PAction.writeAttempt ∉
      (PublishBatch 2 5 ⟨false, 0, 0, 0⟩
        [NewEnvelope ⟨[], [], 1, [], [], [], none, [], []⟩ [] 0,
         NewEnvelope ⟨[], [], 2, [], [], [], none, [], []⟩ [] 0]
        (fun _ => none) none (fun _ => .ok) (fun _ => none)).2.2 ∧
    ((PublishBatch 2 5 ⟨false, 0, 0, 0⟩
        [NewEnvelope ⟨[], [], 1, [], [], [], none, [], []⟩ [] 0,
         NewEnvelope ⟨[], [], 2, [], [], [], none, [], []⟩ [] 0]
        (fun _ => none) none (fun _ => .ok) (fun _ => none)).2.1).messagesFailed = 2 ∧
    ((PublishBatch 2 5 ⟨false, 0, 0, 0⟩
        [NewEnvelope ⟨[], [], 1, [], [], [], none, [], []⟩ [] 0,
         NewEnvelope ⟨[], [], 2, [], [], [], none, [], []⟩ [] 0]
        (fun _ => none) none (fun _ => .ok) (fun _ => none)).2.1).messagesSent = 0 := by
  have h := publish_batch_skips_serialization_failures 2 5 ⟨false, 0, 0, 0⟩
    [NewEnvelope ⟨[], [], 1, [], [], [], none, [], []⟩ [] 0,
     NewEnvelope ⟨[], [], 2, [], [], [], none, [], []⟩ [] 0]
    (fun _ => none) none (fun _ => .ok) (fun _ => none) rfl
  obtain ⟨h1, h2, h3, h4⟩ := h.2.1 (fun e _ => rfl) (by simp)
  exact ⟨h1, h2, h3, h4⟩

/-! ## `internal/worker/worker.go`: the per-worker batching loop -/

/-- The three wake-up events of a worker's `select`, plus channel close. -/
inductive WEvent (α : Type) where
  | take (x : α)
  | timer
  | cancel
  | closed
  deriving Repr, DecidableEq

/-- The worker loop: fold the event sequence over the local batch buffer
and collect every batch handed to `publishBatch`.  `take` appends and
flushes when the buffer length reaches `batchSize` (`len(batch) >=
p.batchSize`); `timer` flushes a non-empty buffer (`len(batch) > 0`);
`cancel` and channel close flush any remainder and exit. -/
def workerRun {α : Type} (batchSize : Nat) : List (WEvent α) → List α → List (List α)
  | [], _ => []
  | e :: rest, buf =>
    match e with
    | .cancel => if 0 < buf.length then [buf] else []
    | .closed => if 0 < buf.length then [buf] else []
    | .take x =>
        if batchSize ≤ (buf ++ [x]).length then
          (buf ++ [x]) :: workerRun batchSize rest []
        else workerRun batchSize rest (buf ++ [x])
    | .timer =>
        if 0 < buf.length then buf :: workerRun batchSize rest []
        else workerRun batchSize rest buf

/-- Every value the buffer assumes while the worker runs, including the
value right after each append. -/
def workerBufs {α : Type} (batchSize : Nat) : List (WEvent α) → List α → List (List α)
  | [], buf => [buf]
  | e :: rest, buf =>
    buf ::
      match e with
      | .cancel => []
      | .closed => []
      | .take x =>
          (buf ++ [x]) ::
            (if batchSize ≤ (buf ++ [x]).length then workerBufs batchSize rest []
             else workerBufs batchSize rest (buf ++ [x]))
      | .timer =>
          if 0 < buf.length then workerBufs batchSize rest []
          else workerBufs batchSize rest buf

/-- The guard at the top of `(*Pool).publishBatch`: an empty batch returns
without calling the publisher. -/
def publishBatchCallsPublisher {α : Type} (batch : List α) : Bool :=
  decide (0 < batch.length)

theorem workerRun_invariant {α : Type} (batchSize : Nat) (hb : 1 ≤ batchSize) :
    ∀ (events : List (WEvent α)) (buf : List α), buf.length < batchSize →
      (∀ b ∈ workerRun batchSize events buf, 1 ≤ b.length ∧ b.length ≤ batchSize) ∧
      (∀ s ∈ workerBufs batchSize events buf, s.length ≤ batchSize) := by
  intro events
  induction events with
  | nil =>
      intro buf hlen
      refine ⟨by simp [workerRun], ?_⟩
      intro s hs
      simp only [workerBufs, List.mem_singleton] at hs
      subst hs
      omega
  | cons e rest ih =>
      intro buf hlen
      cases e with
      | cancel =>
          refine ⟨?_, ?_⟩
          · intro b hbm
            by_cases hne : 0 < buf.length
            · rw [show workerRun batchSize (WEvent.cancel :: rest) buf = [buf] by
                simp only [workerRun]; rw [if_pos hne]] at hbm
              rw [List.mem_singleton] at hbm
              subst hbm
              omega
            · rw [show workerRun batchSize (WEvent.cancel :: rest) buf = [] by
                simp only [workerRun]; rw [if_neg hne]] at hbm
              simp at hbm
          · intro s hs
            simp only [workerBufs, List.mem_cons, List.not_mem_nil, or_false] at hs
            subst hs
            omega
      | closed =>
          refine ⟨?_, ?_⟩
          · intro b hbm
            by_cases hne : 0 < buf.length
            · rw [show workerRun batchSize (WEvent.closed :: rest) buf = [buf] by
                simp only [workerRun]; rw [if_pos hne]] at hbm
              rw [List.mem_singleton] at hbm
              subst hbm
              omega
            · rw [show workerRun batchSize (WEvent.closed :: rest) buf = [] by
                simp only [workerRun]; rw [if_neg hne]] at hbm
              simp at hbm
          · intro s hs
            simp only [workerBufs, List.mem_cons, List.not_mem_nil, or_false] at hs
            subst hs
            omega
      | take x =>
          have hlen' : (buf ++ [x]).length = buf.length + 1 := by simp
          by_cases hfull : batchSize ≤ (buf ++ [x]).length
          · obtain ⟨ih1, ih2⟩ := ih [] (by simpa using hb)
            refine ⟨?_, ?_⟩
            · intro b hbm
              rw [show workerRun batchSize (WEvent.take x :: rest) buf =
                  (buf ++ [x]) :: workerRun batchSize rest [] by
                simp only [workerRun]; rw [if_pos hfull]] at hbm
              rcases List.mem_cons.mp hbm with h | h
              · subst h
                rw [hlen'] at hfull ⊢
                omega
              · exact ih1 b h
            · intro s hs
              rw [show workerBufs batchSize (WEvent.take x :: rest) buf =
                  buf :: (buf ++ [x]) :: workerBufs batchSize rest [] by
                simp only [workerBufs]; rw [if_pos hfull]] at hs
              rcases List.mem_cons.mp hs with h | h
              · subst h; omega
              · rcases List.mem_cons.mp h with h' | h'
                · subst h'
                  rw [hlen'] at hfull ⊢
                  omega
                · exact ih2 s h'
          · obtain ⟨ih1, ih2⟩ := ih (buf ++ [x]) (by rw [hlen']; omega)
            refine ⟨?_, ?_⟩
            · intro b hbm
              rw [show workerRun batchSize (WEvent.take x :: rest) buf =
                  workerRun batchSize rest (buf ++ [x]) by
                simp only [workerRun]; rw [if_neg hfull]] at hbm
              exact ih1 b hbm
            · intro s hs
              rw [show workerBufs batchSize (WEvent.take x :: rest) buf =
                  buf :: (buf ++ [x]) :: workerBufs batchSize rest (buf ++ [x]) by
                simp only [workerBufs]; rw [if_neg hfull]] at hs
              rcases List.mem_cons.mp hs with h | h
              · subst h; omega
              · rcases List.mem_cons.mp h with h' | h'
                · subst h'
                  rw [hlen']
                  omega
                · exact ih2 s h'
      | timer =>
          by_cases hne : 0 < buf.length
          · obtain ⟨ih1, ih2⟩ := ih [] (by simpa using hb)
            refine ⟨?_, ?_⟩
            · intro b hbm
              rw [show workerRun batchSize (WEvent.timer :: rest) buf =
                  buf :: workerRun batchSize rest [] by
                simp only [workerRun]; rw [if_pos hne]] at hbm
              rcases List.mem_cons.mp hbm with h | h
              · subst h; omega
              · exact ih1 b h
            · intro s hs
              rw [show workerBufs batchSize (WEvent.timer :: rest) buf =
                  buf :: workerBufs batchSize rest [] by
                simp only [workerBufs]; rw [if_pos hne]] at hs
              rcases List.mem_cons.mp hs with h | h
              · subst h; omega
              · exact ih2 s h
          · obtain ⟨ih1, ih2⟩ := ih buf hlen
            refine ⟨?_, ?_⟩
            · intro b hbm
              rw [show workerRun batchSize (WEvent.timer :: rest) buf =
                  workerRun batchSize rest buf by
                simp only [workerRun]; rw [if_neg hne]] at hbm
              exact ih1 b hbm
            · intro s hs
              rw [show workerBufs batchSize (WEvent.timer :: rest) buf =
                  buf :: workerBufs batchSize rest buf by
                simp only [workerBufs]; rw [if_neg hne]] at hs
              rcases List.mem_cons.mp hs with h | h
              · subst h; omega
              · exact ih2 s h

/-- C6: starting from an empty buffer, with the configured `batchSize ≥ 1`,
every batch the worker hands to `PublishBatch` has between 1 and
`batchSize` envelopes, the publisher-call guard accepts every one of them
(no empty flush reaches the publisher), and the local buffer never grows
beyond `batchSize`. -/
theorem worker_batch_bounds {α : Type} (batchSize : Nat)
    (events : List (WEvent α)) (hb : 1 ≤ batchSize) :
    (∀ b ∈ workerRun batchSize events ([] : List α),
        1 ≤ b.length ∧ b.length ≤ batchSize) ∧
    (∀ b ∈ workerRun batchSize events ([] : List α),
        publishBatchCallsPublisher b = true) ∧
    (∀ s ∈ workerBufs batchSize events ([] : List α), s.length ≤ batchSize) := by
  obtain ⟨h1, h2⟩ := workerRun_invariant batchSize hb events [] (by simpa using hb)
  refine ⟨h1, ?_, h2⟩
  intro b hbm
  have := (h1 b hbm).1
  simp only [publishBatchCallsPublisher, decide_eq_true_eq]
  omega

/-- C6 witness: `batchSize = 2`, three takes then cancel — the flushed
batches are `[1, 2]` and `[3]`, both within bounds. -/
theorem worker_batch_bounds_witness :
    workerRun 2 [WEvent.take 1, WEvent.take 2, WEvent.take 3, WEvent.cancel]
        ([] : List Nat) = [[1, 2], [3]] ∧
    1 ≤ ([1, 2] : List Nat).length ∧ ([1, 2] : List Nat).length ≤ 2 := by
  have h := worker_batch_bounds 2
    [WEvent.take 1, WEvent.take 2, WEvent.take 3, WEvent.cancel] (by decide)
  exact ⟨by decide, h.1 [1, 2] (by decide)⟩

theorem workerRun_mem_take {α : Type} (batchSize : Nat) :
    ∀ (events : List (WEvent α)) (buf : List α) (b : List α) (x : α),
      b ∈ workerRun batchSize events buf → x ∈ b →
      x ∈ buf ∨ WEvent.take x ∈ events := by
  intro events
  induction events with
  | nil =>
      intro buf b x hbm _
      simp [workerRun] at hbm
  | cons e rest ih =>
      intro buf b x hbm hxb
      cases e with
      | cancel =>
          by_cases hne : 0 < buf.length
          · rw [show workerRun batchSize (WEvent.cancel :: rest) buf = [buf] by
              simp only [workerRun]; rw [if_pos hne]] at hbm
            rw [List.mem_singleton] at hbm
            subst hbm
            exact Or.inl hxb
          · rw [show workerRun batchSize (WEvent.cancel :: rest) buf = [] by
              simp only [workerRun]; rw [if_neg hne]] at hbm
            simp at hbm
      | closed =>
          by_cases hne : 0 < buf.length
          · rw [show workerRun batchSize (WEvent.closed :: rest) buf = [buf] by
              simp only [workerRun]; rw [if_pos hne]] at hbm
            rw [List.mem_singleton] at hbm
            subst hbm
            exact Or.inl hxb
          · rw [show workerRun batchSize (WEvent.closed :: rest) buf = [] by
              simp only [workerRun]; rw [if_neg hne]] at hbm
            simp at hbm
      | take y =>
          by_cases hfull : batchSize ≤ (buf ++ [y]).length
          · rw [show workerRun batchSize (WEvent.take y :: rest) buf =
                (buf ++ [y]) :: workerRun batchSize rest [] by
              simp only [workerRun]; rw [if_pos hfull]] at hbm
            rcases List.mem_cons.mp hbm with h | h
            · subst h
              rcases List.mem_append.mp hxb with h' | h'
              · exact Or.inl h'
              · rw [List.mem_singleton] at h'
                subst h'
                exact Or.inr (by simp)
            · rcases ih [] b x h hxb with h' | h'
              · simp at h'
              · exact Or.inr (List.mem_cons_of_mem _ h')
          · rw [show workerRun batchSize (WEvent.take y :: rest) buf =
                workerRun batchSize rest (buf ++ [y]) by
              simp only [workerRun]; rw [if_neg hfull]] at hbm
            rcases ih (buf ++ [y]) b x hbm hxb with h' | h'
            · rcases List.mem_append.mp h' with h'' | h''
              · exact Or.inl h''
              · rw [List.mem_singleton] at h''
                subst h''
                exact Or.inr (by simp)
            · exact Or.inr (List.mem_cons_of_mem _ h')
      | timer =>
          by_cases hne : 0 < buf.length
          · rw [show workerRun batchSize (WEvent.timer :: rest) buf =
                buf :: workerRun batchSize rest [] by
              simp only [workerRun]; rw [if_pos hne]] at hbm
            rcases List.mem_cons.mp hbm with h | h
            · subst h
              exact Or.inl hxb
            · rcases ih [] b x h hxb with h' | h'
              · simp at h'
              · exact Or.inr (List.mem_cons_of_mem _ h')
          · rw [show workerRun batchSize (WEvent.timer :: rest) buf =
                workerRun batchSize rest buf by
              simp only [workerRun]; rw [if_neg hne]] at hbm
            rcases ih buf b x hbm hxb with h' | h'
            · exact Or.inl h'
            · exact Or.inr (List.mem_cons_of_mem _ h')

/-- A concrete event used in envelope examples. -/
def sampleEvent : LogEvent :=
  { id := gostr "e1", tenantID := gostr "t1", timestamp := 50,
    severity := gostr "INFO", source := gostr "api", message := gostr "hi",
    metadata := none, traceID := [], spanID := [] }

/-- C8 counterexample: `WithBatch` does modify an envelope attribute other
than `retry_count` — it sets `batch_id` (and `batch_index`) — so the claim
that no post-construction operation, `WithBatch` included, modifies any
attribute except `retry_count` is false. -/
theorem with_batch_modifies_batch_id :
    ((NewEnvelope sampleEvent (gostr "node") 7).WithBatch (gostr "b1") 3).batchID ≠
      (NewEnvelope sampleEvent (gostr "node") 7).batchID ∧
    ((NewEnvelope sampleEvent (gostr "node") 7).WithBatch (gostr "b1") 3).batchIndex ≠
      (NewEnvelope sampleEvent (gostr "node") 7).batchIndex := by
  decide

/-- C8 amended: `NewEnvelope` sets `partition_key = event.tenant_id` and
`retry_count = 0`; `WithBatch` changes only `batch_id` and `batch_index`,
preserving `partition_key`, `event`, `received_at`, `ingest_node` and
`retry_count`; and the worker batching loop passes envelopes through
unchanged — every envelope in a flushed batch is one of the taken
envelopes (nothing in the repository ever writes `retry_count` or
`partition_key` after construction). -/
theorem envelope_partition_key_invariant (ev : LogEvent) (node : GoStr)
    (now : Int) (e : Envelope) (bid : GoStr) (idx : Nat) (batchSize : Nat)
    (events : List (WEvent Envelope)) :
    (NewEnvelope ev node now).partitionKey = ev.tenantID ∧
    (NewEnvelope ev node now).retryCount = 0 ∧
    (e.WithBatch bid idx).partitionKey = e.partitionKey ∧
    (e.WithBatch bid idx).event = e.event ∧
    (e.WithBatch bid idx).receivedAt = e.receivedAt ∧
    (e.WithBatch bid idx).ingestNode = e.ingestNode ∧
    (e.WithBatch bid idx).retryCount = e.retryCount ∧
    (∀ b ∈ workerRun batchSize events ([] : List Envelope),
        ∀ x ∈ b, WEvent.take x ∈ events) := by
  refine ⟨rfl, rfl, rfl, rfl, rfl, rfl, rfl, ?_⟩
  intro b hbm x hxb
  rcases workerRun_mem_take batchSize events [] b x hbm hxb with h | h
  · simp at h
  · exact h

/-- C8 amended-theorem witness at a concrete run: the single flushed batch
of a take-then-cancel trace contains exactly the taken envelope. -/
theorem envelope_partition_key_invariant_witness :
    WEvent.take (NewEnvelope sampleEvent (gostr "node") 7) ∈
      [WEvent.take (NewEnvelope sampleEvent (gostr "node") 7), WEvent.cancel] := by
  have h := envelope_partition_key_invariant sampleEvent (gostr "node") 7
    (NewEnvelope sampleEvent (gostr "node") 7) (gostr "b1") 3 100
    [WEvent.take (NewEnvelope sampleEvent (gostr "node") 7), WEvent.cancel]
  exact h.2.2.2.2.2.2.2 [NewEnvelope sampleEvent (gostr "node") 7] (by decide)
    (NewEnvelope sampleEvent (gostr "node") 7) (by decide)

/-! ## `middleware.Auth`: the X-API-Key check -/

/-- Go string comparison as executed: byte-by-byte scan that stops at the
first mismatch, returning the verdict together with the number of
positions inspected (the step count of the comparison). -/
def goStrEqScan : GoStr → GoStr → Bool × Nat
  | [], [] => (true, 0)
  | a :: as, b :: bs =>
      if a = b then
        let (r, n) := goStrEqScan as bs
        (r, n + 1)
      else (false, 1)
  | _, _ => (false, 0)

/-- Go `==`/`!=` on strings: a length check, then the short-circuit scan.
The second component is the comparison's step count. -/
def goStrEqCost (a b : GoStr) : Bool × Nat :=
  if a.length = b.length then goStrEqScan a b else (false, 0)

/-- The hard-coded fallback key in `middleware.Auth`. -/
def defaultAPIKey : GoStr := gostr "test-api-key-123"

/-- The expected key: the `API_KEY` environment value, or the test default
when it is empty. -/
def effectiveAPIKey (envKey : GoStr) : GoStr :=
  if envKey = [] then defaultAPIKey else envKey

/-- `middleware.Auth` on one request: returns the status the middleware
itself writes (`some 401` on rejection, `none` otherwise) and whether the
wrapped handler is invoked.  A missing header reads as the empty string
(`r.Header.Get`). -/
def Auth (envKey apiKey : GoStr) : Option Nat × Bool :=
  if apiKey = [] then (some 401, false)
  else if (goStrEqCost (effectiveAPIKey envKey) apiKey).1 = false then (some 401, false)
  else (none, true)

theorem goStrEqScan_iff :
    ∀ (a b : GoStr), a.length = b.length → ((goStrEqScan a b).1 = true ↔ a = b) := by
  intro a
  induction a with
  | nil =>
      intro b hl
      cases b with
      | nil => simp [goStrEqScan]
      | cons _ _ => simp at hl
  | cons x xs ih =>
      intro b hl
      cases b with
      | nil => simp at hl
      | cons y ys =>
          simp only [List.length_cons, Nat.add_right_cancel_iff] at hl
          by_cases hxy : x = y
          · subst hxy
            rcases hscan : goStrEqScan xs ys with ⟨r, n⟩
            have := ih ys hl
            rw [hscan] at this
            simp only [goStrEqScan, eq_self_iff_true, if_true, hscan] at this ⊢
            simp [this]
          · simp [goStrEqScan, hxy]

theorem goStrEqCost_iff (a b : GoStr) : ((goStrEqCost a b).1 = true) ↔ a = b := by
  unfold goStrEqCost
  by_cases h : a.length = b.length
  · rw [if_pos h]
    exact goStrEqScan_iff a b h
  · rw [if_neg h]
    simp only [Bool.false_eq_true, false_iff]
    intro heq
    exact h (by rw [heq])

/-- C7 counterexample: the key comparison is the ordinary short-circuit
string comparison, not a constant-time one — two wrong keys of the same
length as the secret are rejected with 401, yet the comparison inspects 16
positions for one and 1 position for the other, depending exactly on how
many leading characters match. -/
theorem auth_not_constant_time :
    Auth [] (gostr "test-api-key-12X") = (some 401, false) ∧
    Auth [] (gostr "Xest-api-key-123") = (some 401, false) ∧
    (gostr "test-api-key-12X").length = (gostr "Xest-api-key-123").length ∧
    (goStrEqCost defaultAPIKey (gostr "test-api-key-12X")).2 = 16 ∧
    (goStrEqCost defaultAPIKey (gostr "Xest-api-key-123")).2 = 1 := by
  decide

/-- C7 amended: every request must carry `X-API-Key`; a missing or
non-matching key yields 401 and the request is never forwarded to the
ingest handler; the request is forwarded exactly when the key is non-empty
and equals the configured secret (the `API_KEY` value, or the test default
when unset).  The comparison, however, is Go's ordinary short-circuit
string equality, not constant-time: equal-length wrong keys can take
different numbers of comparison steps. -/
theorem auth_contract (envKey apiKey : GoStr) :
    ((Auth envKey apiKey).2 = true ↔
      (apiKey ≠ [] ∧ apiKey = effectiveAPIKey envKey)) ∧
    ((Auth envKey apiKey).2 = false ↔ (Auth envKey apiKey).1 = some 401) ∧
    (∃ k1 k2 : GoStr, k1.length = k2.length ∧
      Auth [] k1 = (some 401, false) ∧ Auth [] k2 = (some 401, false) ∧
      (goStrEqCost defaultAPIKey k1).2 ≠ (goStrEqCost defaultAPIKey k2).2) := by
  refine ⟨?_, ?_, ?_⟩
  · unfold Auth
    by_cases hk : apiKey = []
    · simp [hk]
    · rw [if_neg hk]
      by_cases hm : (goStrEqCost (effectiveAPIKey envKey) apiKey).1 = false
      · rw [if_pos hm]
        simp only [Bool.false_eq_true, false_iff]
        intro ⟨_, heq⟩
        rw [heq] at hm
        rw [(goStrEqCost_iff _ _).mpr rfl] at hm
        exact Bool.true_eq_false.mp hm
      · rw [if_neg hm]
        simp only [true_iff]
        rw [Bool.not_eq_false] at hm
        exact ⟨hk, ((goStrEqCost_iff _ _).mp hm).symm⟩
  · unfold Auth
    by_cases hk : apiKey = []
    · simp [hk]
    · rw [if_neg hk]
      by_cases hm : (goStrEqCost (effectiveAPIKey envKey) apiKey).1 = false
      · rw [if_pos hm]
        simp
      · rw [if_neg hm]
        simp
  · exact ⟨gostr "test-api-key-12X", gostr "Xest-api-key-123", by decide, by decide,
      by decide, by decide⟩
